import Mathlib

/-!
Verification of the gibbs phase-stability core.

The repository under verification is the `gibbs` package: a cubic
equation-of-state (EOS) layer (PengRobinson78, SoaveRedlichKwong) and a
Michelsen tangent-plane-distance stability test (`stability_test`), together
with the notebook wrapper classes `NichitaPR` and `NichitaSRK` that adapt the
EOS models for the stability analyzer.

The source tree contains the notebook `nichita-stability-cases-paper.ipynb`
(which defines `NichitaPR` and `NichitaSRK` and exercises `stability_test`)
and the CI configuration.  The bodies of `gibbs.models.ceos`,
`gibbs.stability_analysis`, `gibbs.mixture` and `gibbs.utilities` are not in
the tree; where a claim depends on them they are modelled from the spec, and
each such definition carries a doc comment saying so.  Real numbers that the
code manipulates as float64 are embedded as rationals; the underlying EOS
evaluation functions (which involve transcendental operations) are abstracted
as explicit functional parameters.
-/

namespace Gibbs

/-- Modelled from the spec: the error taxonomy of section 7 of the design
(gibbs error classes are not under src/).  `NoPhysicalRootError` signals that
the cubic EOS has no admissible real root, `InvalidCompositionError` a bad
feed composition. -/
inductive EOSError where
  | NoPhysicalRootError
  | InvalidCompositionError
deriving DecidableEq, Repr

/-- Decidable equality for fallible results, so that concrete evaluations
of the embedded operations can be settled by decision. -/
instance {ε α : Type} [DecidableEq ε] [DecidableEq α] :
    DecidableEq (Except ε α) := fun a b =>
  match a, b with
  | Except.error e, Except.error f =>
      if h : e = f then Decidable.isTrue (by rw [h])
      else Decidable.isFalse (fun hc => h (by injection hc))
  | Except.error _, Except.ok _ =>
      Decidable.isFalse (fun hc => Except.noConfusion hc)
  | Except.ok _, Except.error _ =>
      Decidable.isFalse (fun hc => Except.noConfusion hc)
  | Except.ok x, Except.ok y =>
      if h : x = y then Decidable.isTrue (by rw [h])
      else Decidable.isFalse (fun hc => h (by injection hc))

/-- The `Mixture` record from gibbs.mixture as used by the notebook:
feed composition `z`, critical temperatures `Tc`, critical pressures `Pc`
and acentric factors `omega`, all as vectors over the components. -/
structure Mixture where
  z : List ℚ
  Tc : List ℚ
  Pc : List ℚ
  omega : List ℚ
deriving DecidableEq, Repr

/-- The PengRobinson78 EOS configuration from gibbs.models.ceos as
constructed by the notebook: a mixture plus a binary-interaction-parameter
matrix. -/
structure PengRobinson78 where
  mixture : Mixture
  bip : List (List ℚ)
deriving DecidableEq, Repr

/-- The SoaveRedlichKwong EOS configuration from gibbs.models.ceos as
constructed by the notebook: a mixture plus a binary-interaction-parameter
matrix. -/
structure SoaveRedlichKwong where
  mixture : Mixture
  bip : List (List ℚ)
deriving DecidableEq, Repr

/-- The computational interface of a cubic EOS model (the method suite the
notebook wrappers invoke on `PengRobinson78` / `SoaveRedlichKwong`).  The
implementations live in gibbs.models.ceos, outside src/, so they enter the
embedding as explicit function parameters: `calculate_Z_minimal_energy`
resolves the compressibility factor for `(P, T, z)` (or fails), and
`calculate_fugacity` computes the per-component fugacities from a resolved
Z factor. -/
structure CEOSImpl (EOS : Type) where
  calculate_Z_minimal_energy : EOS → ℚ → ℚ → List ℚ → Except EOSError ℚ
  calculate_fugacity : EOS → ℚ → ℚ → List ℚ → ℚ → List ℚ

/-- The `NichitaPR` wrapper class defined in the notebook: holds a mixture
and a bip matrix. -/
structure NichitaPR where
  mixture : Mixture
  bip : List (List ℚ)
deriving DecidableEq, Repr

/-- The `model` property of `NichitaPR`: every access constructs a fresh
`PengRobinson78` instance from the wrapper's current fields. -/
def NichitaPR.model (self : NichitaPR) : PengRobinson78 :=
  ⟨self.mixture, self.bip⟩

/-- The `number_of_components` property of `NichitaPR`, with the wrapper
state threaded explicitly (the property reads `len(self.mixture.z)` and
returns; the state component records the wrapper after the call). -/
def NichitaPR.number_of_components_st (self : NichitaPR) : Nat × NichitaPR :=
  (self.mixture.z.length, self)

/-- The `calculate_Z` method of `NichitaPR`, state threaded explicitly.
Body: `Z_factor = self.model.calculate_Z_minimal_energy(P, T, z);
return Z_factor`. -/
def NichitaPR.calculate_Z_st (K : CEOSImpl PengRobinson78) (self : NichitaPR)
    (P T : ℚ) (z : List ℚ) : Except EOSError ℚ × NichitaPR :=
  (K.calculate_Z_minimal_energy self.model P T z, self)

/-- The `fugacity` method of `NichitaPR`, state threaded explicitly.
Body: `Z_factor = self.calculate_Z(P, T, z);
return self.model.calculate_fugacity(P, T, z, Z_factor)`.  A failure raised
while resolving `Z_factor` propagates to the caller. -/
def NichitaPR.fugacity_st (K : CEOSImpl PengRobinson78) (self : NichitaPR)
    (P T : ℚ) (z : List ℚ) : Except EOSError (List ℚ) × NichitaPR :=
  let step := self.calculate_Z_st K P T z
  match step.1 with
  | Except.error e => (Except.error e, step.2)
  | Except.ok Z_factor =>
      (Except.ok (K.calculate_fugacity step.2.model P T z Z_factor), step.2)

/-- Value of `NichitaPR.calculate_Z` (the Python method's return value). -/
def NichitaPR.calculate_Z (K : CEOSImpl PengRobinson78) (self : NichitaPR)
    (P T : ℚ) (z : List ℚ) : Except EOSError ℚ :=
  (self.calculate_Z_st K P T z).1

/-- Value of `NichitaPR.fugacity` (the Python method's return value). -/
def NichitaPR.fugacity (K : CEOSImpl PengRobinson78) (self : NichitaPR)
    (P T : ℚ) (z : List ℚ) : Except EOSError (List ℚ) :=
  (self.fugacity_st K P T z).1

/-- The `NichitaSRK` wrapper class defined in the notebook: holds a mixture
and a bip matrix. -/
structure NichitaSRK where
  mixture : Mixture
  bip : List (List ℚ)
deriving DecidableEq, Repr

/-- The `model` property of `NichitaSRK`: every access constructs a fresh
`SoaveRedlichKwong` instance from the wrapper's current fields. -/
def NichitaSRK.model (self : NichitaSRK) : SoaveRedlichKwong :=
  ⟨self.mixture, self.bip⟩

/-- The `number_of_components` property of `NichitaSRK`, state threaded
explicitly. -/
def NichitaSRK.number_of_components_st (self : NichitaSRK) : Nat × NichitaSRK :=
  (self.mixture.z.length, self)

/-- The `calculate_Z` method of `NichitaSRK`, state threaded explicitly. -/
def NichitaSRK.calculate_Z_st (K : CEOSImpl SoaveRedlichKwong)
    (self : NichitaSRK) (P T : ℚ) (z : List ℚ) :
    Except EOSError ℚ × NichitaSRK :=
  (K.calculate_Z_minimal_energy self.model P T z, self)

/-- The `fugacity` method of `NichitaSRK`, state threaded explicitly. -/
def NichitaSRK.fugacity_st (K : CEOSImpl SoaveRedlichKwong)
    (self : NichitaSRK) (P T : ℚ) (z : List ℚ) :
    Except EOSError (List ℚ) × NichitaSRK :=
  let step := self.calculate_Z_st K P T z
  match step.1 with
  | Except.error e => (Except.error e, step.2)
  | Except.ok Z_factor =>
      (Except.ok (K.calculate_fugacity step.2.model P T z Z_factor), step.2)

/-- Value of `NichitaSRK.calculate_Z`. -/
def NichitaSRK.calculate_Z (K : CEOSImpl SoaveRedlichKwong)
    (self : NichitaSRK) (P T : ℚ) (z : List ℚ) : Except EOSError ℚ :=
  (self.calculate_Z_st K P T z).1

/-- Value of `NichitaSRK.fugacity`. -/
def NichitaSRK.fugacity (K : CEOSImpl SoaveRedlichKwong)
    (self : NichitaSRK) (P T : ℚ) (z : List ℚ) : Except EOSError (List ℚ) :=
  (self.fugacity_st K P T z).1

/-- Modelled from the spec: the outcome of iterating one trial-phase seed in
step 3 of the stability algorithm (gibbs.stability_analysis is not under
src/).  A trial either exceeds its iteration cap without meeting the
stationarity tolerance, or converges to a mole-number vector `Y`. -/
inductive TrialOutcome where
  | nonConverged
  | converged (Y : List ℚ)
deriving DecidableEq, Repr

/-- Renormalization of a mole-number vector to a composition,
`y = Y / sum(Y)`. -/
def normalize (Y : List ℚ) : List ℚ :=
  Y.map (fun Yi => Yi / Y.sum)

/-- Modelled from the spec: the trivial-solution test of step 4
(gibbs.stability_analysis is not under src/).  A converged trial is trivial
when its normalized composition is numerically indistinguishable from the
feed: every `ln(y_i / z_i)` is near zero, embedded over the rationals as
every ratio `y_i / z_i` being within `eps` of 1. -/
def isTrivialTrial (eps : ℚ) (z Y : List ℚ) : Bool :=
  (List.zip (normalize Y) z).all (fun p => decide (|p.1 / p.2 - 1| ≤ eps))

/-- The `StabilityResult` record returned by `stability_test`: the
phase-split verdict plus the converged non-trivial trial compositions that
certify it. -/
structure StabilityResult where
  phase_split : Bool
  trial_compositions : List (List ℚ)
deriving DecidableEq, Repr

/-- Modelled from the spec: the screening of one trial outcome inside
`stability_test` (gibbs.stability_analysis is not under src/).  A trial
contributes evidence only when it converged and its stationary point is not
the trivial solution; the screening returns its mole-number vector in that
case. -/
def nontrivialConverged (trivTol : ℚ) (z : List ℚ) :
    TrialOutcome → Option (List ℚ)
  | TrialOutcome.nonConverged => none
  | TrialOutcome.converged Y =>
      if isTrivialTrial trivTol z Y then none else some Y

/-- Modelled from the spec: `stability_test` from gibbs.stability_analysis
(not under src/), steps 3 to 6 of the Michelsen algorithm.  The per-seed
fixed-point iteration (which evaluates the EOS fugacities, a transcendental
float computation) is abstracted as the function `iterate` from a seed to
its `TrialOutcome`.  Each converged trial is screened by the
trivial-solution test with tolerance `trivTol`; the feed is declared
unstable exactly when some converged non-trivial trial has `sum(Y) > 1` by
at least the explicit tolerance `sumTol` (a converged sum within `sumTol`
of 1 is classified stable). -/
def stability_test (iterate : List ℚ → TrialOutcome) (sumTol trivTol : ℚ)
    (z : List ℚ) (seeds : List (List ℚ)) : StabilityResult :=
  let outcomes := seeds.map iterate
  let nontrivial := outcomes.filterMap (nontrivialConverged trivTol z)
  ⟨nontrivial.any (fun Y => decide (1 + sumTol ≤ Y.sum)),
    nontrivial.map normalize⟩

/-- Modelled from the spec: the Gibbs-energy disambiguation stage of
`calculate_Z_minimal_energy` in gibbs.models.ceos (not under src/).
Among a head root and further candidate roots, selects the root whose
residual Gibbs energy (departure function `gibbs`) is minimal, keeping the
earlier root on ties. -/
def argminGibbs (gibbs : ℚ → ℚ) (r : ℚ) (rs : List ℚ) : ℚ :=
  rs.foldl (fun best c => if gibbs c < gibbs best then c else best) r

/-- Modelled from the spec: `calculate_Z_minimal_energy` of
gibbs.models.ceos (not under src/).  The closed-form real-root computation
for the cubic is transcendental, so the real roots enter as the list
`roots` and the EOS departure function as `gibbs`; the admissibility bound
is the dimensionless co-volume `B`.  Roots with `Z > B` are admissible; if
none is, the evaluation fails with `NoPhysicalRootError`; otherwise the
admissible root of minimal residual Gibbs energy is returned. -/
def calculate_Z_minimal_energy (gibbs : ℚ → ℚ) (B : ℚ) (roots : List ℚ) :
    Except EOSError ℚ :=
  match roots.filter (fun Z => decide (B < Z)) with
  | [] => Except.error EOSError.NoPhysicalRootError
  | r :: rs => Except.ok (argminGibbs gibbs r rs)

theorem argminGibbs_mem (gibbs : ℚ → ℚ) (r : ℚ) (rs : List ℚ) :
    argminGibbs gibbs r rs ∈ r :: rs := by
  induction rs generalizing r with
  | nil => simp [argminGibbs]
  | cons c cs ih =>
      have hstep : argminGibbs gibbs r (c :: cs) =
          argminGibbs gibbs (if gibbs c < gibbs r then c else r) cs := by
        simp [argminGibbs]
      rw [hstep]
      have h := ih (if gibbs c < gibbs r then c else r)
      rcases List.mem_cons.1 h with h1 | h1
      · rw [h1]
        by_cases hc : gibbs c < gibbs r
        · simp [hc]
        · simp [hc]
      · exact List.mem_cons_of_mem _ (List.mem_cons_of_mem _ h1)

theorem argminGibbs_le (gibbs : ℚ → ℚ) (r : ℚ) (rs : List ℚ) :
    ∀ x ∈ r :: rs, gibbs (argminGibbs gibbs r rs) ≤ gibbs x := by
  induction rs generalizing r with
  | nil =>
      intro x hx
      simp at hx
      simp [argminGibbs, hx]
  | cons c cs ih =>
      intro x hx
      have hstep : argminGibbs gibbs r (c :: cs) =
          argminGibbs gibbs (if gibbs c < gibbs r then c else r) cs := by
        simp [argminGibbs]
      rw [hstep]
      have hmin : gibbs (argminGibbs gibbs (if gibbs c < gibbs r then c else r) cs)
          ≤ gibbs (if gibbs c < gibbs r then c else r) :=
        ih (if gibbs c < gibbs r then c else r) _ (List.mem_cons_self _ _)
      rcases List.mem_cons.1 hx with h1 | h1
      · subst h1
        refine le_trans hmin ?_
        by_cases hc : gibbs c < gibbs x
        · simp [hc]
          exact le_of_lt hc
        · simp [hc]
      · rcases List.mem_cons.1 h1 with h2 | h2
        · subst h2
          refine le_trans hmin ?_
          by_cases hc : gibbs x < gibbs r
          · simp [hc]
          · simp [hc]
            exact le_of_not_lt hc
        · exact ih (if gibbs c < gibbs r then c else r) x (List.mem_cons_of_mem _ h2)

theorem nontrivialConverged_eq_some (trivTol : ℚ) (z : List ℚ)
    (o : TrialOutcome) (Y : List ℚ) :
    nontrivialConverged trivTol z o = some Y ↔
      o = TrialOutcome.converged Y ∧ isTrivialTrial trivTol z Y = false := by
  cases o with
  | nonConverged => simp [nontrivialConverged]
  | converged W =>
      by_cases h : isTrivialTrial trivTol z W
      · simp [nontrivialConverged, h]
        intro hWY
        subst hWY
        simp [h]
      · simp [nontrivialConverged, h]
        intro hWY
        subst hWY
        simpa using h

/-- A concrete EOS implementation used to exercise the wrapper theorems on
closed inputs: Z resolution returns P + T, fugacities return the composition
scaled by the resolved Z factor. -/
def demoPRImpl : CEOSImpl PengRobinson78 :=
  ⟨fun _ P T _ => Except.ok (P + T), fun _ _ _ z Z => z.map (fun zi => zi * Z)⟩

/-- SRK counterpart of the concrete demonstration implementation. -/
def demoSRKImpl : CEOSImpl SoaveRedlichKwong :=
  ⟨fun _ P T _ => Except.ok (P + T), fun _ _ _ z Z => z.map (fun zi => zi * Z)⟩

/-- A concrete EOS implementation whose Z resolution always fails with
`NoPhysicalRootError`, used to exercise error propagation on closed
inputs. -/
def demoFailPRImpl : CEOSImpl PengRobinson78 :=
  ⟨fun _ _ _ _ => Except.error EOSError.NoPhysicalRootError, fun _ _ _ z _ => z⟩

/-- A concrete two-component mixture for closed-input instantiations. -/
def demoMixture : Mixture :=
  ⟨[1/2, 1/2], [190, 373], [46, 90], [1/100, 9/100]⟩

/-- A concrete `NichitaPR` wrapper instance. -/
def demoPR : NichitaPR :=
  ⟨demoMixture, [[0, 2/25], [2/25, 0]]⟩

/-- A concrete `NichitaSRK` wrapper instance. -/
def demoSRK : NichitaSRK :=
  ⟨demoMixture, [[0, 2/25], [2/25, 0]]⟩

/-- Claim C8: stability_test is deterministic — for every trial iterator,
tolerance pair, feed composition and seed list, two calls with identical
inputs return identical phase_split verdicts and identical converged trial
compositions; no hidden random seeding enters the computation. -/
theorem claims_C8 (iterate1 iterate2 : List ℚ → TrialOutcome)
    (sumTol1 sumTol2 trivTol1 trivTol2 : ℚ) (z1 z2 : List ℚ)
    (seeds1 seeds2 : List (List ℚ))
    (hI : iterate1 = iterate2) (hsum : sumTol1 = sumTol2)
    (htriv : trivTol1 = trivTol2) (hz : z1 = z2) (hseeds : seeds1 = seeds2) :
    (stability_test iterate1 sumTol1 trivTol1 z1 seeds1).phase_split =
      (stability_test iterate2 sumTol2 trivTol2 z2 seeds2).phase_split ∧
    (stability_test iterate1 sumTol1 trivTol1 z1 seeds1).trial_compositions =
      (stability_test iterate2 sumTol2 trivTol2 z2 seeds2).trial_compositions := by
  subst hI hsum htriv hz hseeds
  exact ⟨rfl, rfl⟩

/-- Witness for claim C8 at a concrete call repeated twice. -/
theorem claims_C8_witness :
    (stability_test (fun _ => TrialOutcome.nonConverged) (1/1000000000)
        (1/1000000000) [1/2, 1/2] [[1, 1]]).phase_split =
      (stability_test (fun _ => TrialOutcome.nonConverged) (1/1000000000)
        (1/1000000000) [1/2, 1/2] [[1, 1]]).phase_split ∧
    (stability_test (fun _ => TrialOutcome.nonConverged) (1/1000000000)
        (1/1000000000) [1/2, 1/2] [[1, 1]]).trial_compositions =
      (stability_test (fun _ => TrialOutcome.nonConverged) (1/1000000000)
        (1/1000000000) [1/2, 1/2] [[1, 1]]).trial_compositions :=
  claims_C8 (fun _ => TrialOutcome.nonConverged)
    (fun _ => TrialOutcome.nonConverged) (1/1000000000) (1/1000000000)
    (1/1000000000) (1/1000000000) [1/2, 1/2] [1/2, 1/2] [[1, 1]] [[1, 1]]
    rfl rfl rfl rfl rfl

/-- Claim C9: the wrapper fugacity(P, T, z) of NichitaPR (respectively
NichitaSRK) equals calculate_fugacity(P, T, z, Z) of the underlying
PengRobinson78 (respectively SoaveRedlichKwong) model, where Z is the
factor obtained by first calling calculate_Z_minimal_energy(P, T, z) on the
same model: Z resolution precedes and feeds the fugacity computation. -/
theorem claims_C9 :
    (∀ (K : CEOSImpl PengRobinson78) (self : NichitaPR) (P T : ℚ)
        (z : List ℚ) (Z : ℚ),
      K.calculate_Z_minimal_energy self.model P T z = Except.ok Z →
      NichitaPR.fugacity K self P T z =
        Except.ok (K.calculate_fugacity self.model P T z Z)) ∧
    (∀ (K : CEOSImpl SoaveRedlichKwong) (self : NichitaSRK) (P T : ℚ)
        (z : List ℚ) (Z : ℚ),
      K.calculate_Z_minimal_energy self.model P T z = Except.ok Z →
      NichitaSRK.fugacity K self P T z =
        Except.ok (K.calculate_fugacity self.model P T z Z)) := by
  constructor
  · intro K self P T z Z h
    simp [NichitaPR.fugacity, NichitaPR.fugacity_st,
      NichitaPR.calculate_Z_st, h]
  · intro K self P T z Z h
    simp [NichitaSRK.fugacity, NichitaSRK.fugacity_st,
      NichitaSRK.calculate_Z_st, h]

/-- Witness for claim C9 at a concrete kernel, wrapper and state point. -/
theorem claims_C9_witness :
    NichitaPR.fugacity demoPRImpl demoPR 1 2 [1/2, 1/2] =
      Except.ok (demoPRImpl.calculate_fugacity demoPR.model 1 2 [1/2, 1/2] 3) ∧
    NichitaSRK.fugacity demoSRKImpl demoSRK 1 2 [1/2, 1/2] =
      Except.ok (demoSRKImpl.calculate_fugacity demoSRK.model 1 2 [1/2, 1/2] 3) :=
  ⟨claims_C9.1 demoPRImpl demoPR 1 2 [1/2, 1/2] 3 (by norm_num [demoPRImpl]),
   claims_C9.2 demoSRKImpl demoSRK 1 2 [1/2, 1/2] 3 (by norm_num [demoSRKImpl])⟩

/-- Claim C10: the wrappers never mutate their mixture and bip fields —
calculate_Z, fugacity and number_of_components leave the wrapper state
unchanged — every access of the model property constructs the EOS instance
from exactly those fields, and the EOS configurations used for the Z
resolution step and for the fugacity step inside fugacity coincide. -/
theorem claims_C10 :
    (∀ (K : CEOSImpl PengRobinson78) (self : NichitaPR) (P T : ℚ)
        (z : List ℚ),
      (NichitaPR.calculate_Z_st K self P T z).2 = self ∧
      (NichitaPR.fugacity_st K self P T z).2 = self ∧
      (NichitaPR.number_of_components_st self).2 = self ∧
      NichitaPR.model (NichitaPR.fugacity_st K self P T z).2 =
        NichitaPR.model self ∧
      NichitaPR.model self = ⟨self.mixture, self.bip⟩) ∧
    (∀ (K : CEOSImpl SoaveRedlichKwong) (self : NichitaSRK) (P T : ℚ)
        (z : List ℚ),
      (NichitaSRK.calculate_Z_st K self P T z).2 = self ∧
      (NichitaSRK.fugacity_st K self P T z).2 = self ∧
      (NichitaSRK.number_of_components_st self).2 = self ∧
      NichitaSRK.model (NichitaSRK.fugacity_st K self P T z).2 =
        NichitaSRK.model self ∧
      NichitaSRK.model self = ⟨self.mixture, self.bip⟩) := by
  constructor
  · intro K self P T z
    have hf : (NichitaPR.fugacity_st K self P T z).2 = self := by
      unfold NichitaPR.fugacity_st NichitaPR.calculate_Z_st
      cases K.calculate_Z_minimal_energy self.model P T z <;> rfl
    exact ⟨rfl, hf, rfl, by rw [hf], rfl⟩
  · intro K self P T z
    have hf : (NichitaSRK.fugacity_st K self P T z).2 = self := by
      unfold NichitaSRK.fugacity_st NichitaSRK.calculate_Z_st
      cases K.calculate_Z_minimal_energy self.model P T z <;> rfl
    exact ⟨rfl, hf, rfl, by rw [hf], rfl⟩

/-- Claim C6: whenever calculate_Z_minimal_energy succeeds it returns a
single compressibility factor Z with Z > B, and among the real roots the
returned one has residual Gibbs energy (departure function value) at most
that of every other admissible root. -/
theorem claims_C6 (gibbs : ℚ → ℚ) (B : ℚ) (roots : List ℚ) (Z : ℚ)
    (h : calculate_Z_minimal_energy gibbs B roots = Except.ok Z) :
    B < Z ∧ ∀ r ∈ roots, B < r → gibbs Z ≤ gibbs r := by
  unfold calculate_Z_minimal_energy at h
  cases hf : roots.filter (fun x => decide (B < x)) with
  | nil =>
      rw [hf] at h
      exact absurd h (by simp)
  | cons r rs =>
      rw [hf] at h
      have hZ : argminGibbs gibbs r rs = Z := by
        injection h
      constructor
      · have hmem : Z ∈ roots.filter (fun x => decide (B < x)) := by
          rw [hf, ← hZ]
          exact argminGibbs_mem gibbs r rs
        have := List.of_mem_filter hmem
        simpa using this
      · intro x hx hBx
        have hxf : x ∈ roots.filter (fun x => decide (B < x)) :=
          List.mem_filter.2 ⟨hx, by simpa using hBx⟩
        rw [hf] at hxf
        rw [← hZ]
        exact argminGibbs_le gibbs r rs x hxf

/-- Witness for claim C6: with departure function id, B = 0 and roots
3, 1, 2, the selected factor is 1, which is admissible and of minimal
departure value among the admissible roots. -/
theorem claims_C6_witness :
    (0:ℚ) < 1 ∧ ∀ r ∈ [(3:ℚ), 1, 2], 0 < r → id (1:ℚ) ≤ id r :=
  claims_C6 id 0 [3, 1, 2] 1 (by decide)

/-- Claim C7: when no real root satisfies Z > B, calculate_Z_minimal_energy
fails with NoPhysicalRootError rather than selecting any root, and a Z
resolution error raised under a wrapper's fugacity call propagates to the
caller as that same hard error. -/
theorem claims_C7 :
    (∀ (gibbs : ℚ → ℚ) (B : ℚ) (roots : List ℚ),
      (∀ r ∈ roots, r ≤ B) →
      calculate_Z_minimal_energy gibbs B roots =
        Except.error EOSError.NoPhysicalRootError) ∧
    (∀ (K : CEOSImpl PengRobinson78) (self : NichitaPR) (P T : ℚ)
        (z : List ℚ) (e : EOSError),
      K.calculate_Z_minimal_energy self.model P T z = Except.error e →
      NichitaPR.fugacity K self P T z = Except.error e) ∧
    (∀ (K : CEOSImpl SoaveRedlichKwong) (self : NichitaSRK) (P T : ℚ)
        (z : List ℚ) (e : EOSError),
      K.calculate_Z_minimal_energy self.model P T z = Except.error e →
      NichitaSRK.fugacity K self P T z = Except.error e) := by
  refine ⟨?_, ?_, ?_⟩
  · intro gibbs B roots hall
    have hf : roots.filter (fun x => decide (B < x)) = [] := by
      apply List.filter_eq_nil_iff.2
      intro a ha
      simpa using not_lt.2 (hall a ha)
    unfold calculate_Z_minimal_energy
    rw [hf]
  · intro K self P T z e h
    simp [NichitaPR.fugacity, NichitaPR.fugacity_st,
      NichitaPR.calculate_Z_st, h]
  · intro K self P T z e h
    simp [NichitaSRK.fugacity, NichitaSRK.fugacity_st,
      NichitaSRK.calculate_Z_st, h]

/-- Witness for claim C7: with B = 5 every root in 1, 2 is inadmissible and
the selection fails; the always-failing kernel makes the wrapper's fugacity
call surface the same error. -/
theorem claims_C7_witness :
    calculate_Z_minimal_energy id 5 [1, 2] =
      Except.error EOSError.NoPhysicalRootError ∧
    NichitaPR.fugacity demoFailPRImpl demoPR 1 2 [1/2, 1/2] =
      Except.error EOSError.NoPhysicalRootError :=
  ⟨claims_C7.1 id 5 [1, 2] (by decide),
   claims_C7.2.1 demoFailPRImpl demoPR 1 2 [1/2, 1/2]
     EOSError.NoPhysicalRootError (by simp [demoFailPRImpl])⟩

/-- Claim C5: stability_test returns phase_split = true if and only if some
converged non-trivial trial has sum(Y) exceeding 1 beyond the explicit
tolerance; if every trial converges to the trivial solution or every
non-trivial stationary point has sum(Y) ≤ 1 it returns phase_split = false;
and when every converged sum(Y) lies within the tolerance of 1 the feed is
classified as stable. -/
theorem claims_C5 (iterate : List ℚ → TrialOutcome) (sumTol trivTol : ℚ)
    (z : List ℚ) (seeds : List (List ℚ)) (hTol : 0 < sumTol) :
    ((stability_test iterate sumTol trivTol z seeds).phase_split = true ↔
      ∃ s ∈ seeds, ∃ Y, iterate s = TrialOutcome.converged Y ∧
        isTrivialTrial trivTol z Y = false ∧ 1 + sumTol ≤ Y.sum) ∧
    ((∀ s ∈ seeds, ∀ Y, iterate s = TrialOutcome.converged Y →
        isTrivialTrial trivTol z Y = true ∨ Y.sum ≤ 1) →
      (stability_test iterate sumTol trivTol z seeds).phase_split = false) ∧
    ((∀ s ∈ seeds, ∀ Y, iterate s = TrialOutcome.converged Y →
        |Y.sum - 1| < sumTol) →
      (stability_test iterate sumTol trivTol z seeds).phase_split = false) := by
  have hiff : (stability_test iterate sumTol trivTol z seeds).phase_split
      = true ↔
      ∃ s ∈ seeds, ∃ Y, iterate s = TrialOutcome.converged Y ∧
        isTrivialTrial trivTol z Y = false ∧ 1 + sumTol ≤ Y.sum := by
    have key : (stability_test iterate sumTol trivTol z seeds).phase_split =
        ((seeds.map iterate).filterMap (nontrivialConverged trivTol z)).any
          (fun Y => decide (1 + sumTol ≤ Y.sum)) := rfl
    rw [key, List.any_eq_true]
    constructor
    · rintro ⟨Y, hY, hp⟩
      obtain ⟨o, ho, hsome⟩ := List.mem_filterMap.1 hY
      obtain ⟨s, hs, rfl⟩ := List.mem_map.1 ho
      obtain ⟨hconv, htriv⟩ :=
        (nontrivialConverged_eq_some trivTol z _ Y).1 hsome
      exact ⟨s, hs, Y, hconv, htriv, of_decide_eq_true hp⟩
    · rintro ⟨s, hs, Y, hconv, htriv, hsum⟩
      refine ⟨Y, List.mem_filterMap.2 ⟨iterate s, List.mem_map.2 ⟨s, hs, rfl⟩,
        (nontrivialConverged_eq_some trivTol z _ Y).2 ⟨hconv, htriv⟩⟩,
        decide_eq_true hsum⟩
  refine ⟨hiff, ?_, ?_⟩
  · intro hall
    cases hps : (stability_test iterate sumTol trivTol z seeds).phase_split with
    | false => rfl
    | true =>
        exfalso
        obtain ⟨s, hs, Y, hconv, htriv, hsum⟩ := hiff.1 hps
        rcases hall s hs Y hconv with h1 | h1
        · rw [htriv] at h1
          exact Bool.false_ne_true h1
        · linarith
  · intro hall
    cases hps : (stability_test iterate sumTol trivTol z seeds).phase_split with
    | false => rfl
    | true =>
        exfalso
        obtain ⟨s, hs, Y, hconv, htriv, hsum⟩ := hiff.1 hps
        have habs := abs_lt.1 (hall s hs Y hconv)
        linarith [habs.2]

/-- Witness for claim C5 at a concrete iterator: the single seed converges
to mole numbers summing to 5/4, away from the feed, so the verdict at the
explicit tolerance of one part per billion is a phase split. -/
theorem claims_C5_witness :
    (stability_test (fun _ => TrialOutcome.converged [3/4, 1/2])
      (1/1000000000) (1/1000000000) [1/2, 1/2] [[1, 1]]).phase_split = true := by
  have h := claims_C5 (fun _ => TrialOutcome.converged [3/4, 1/2])
      (1/1000000000) (1/1000000000) [1/2, 1/2] [[1, 1]] (by norm_num)
  exact h.1.mpr ⟨[1, 1], by simp, [3/4, 1/2], rfl,
    by norm_num [isTrivialTrial, normalize, abs_of_nonneg], by norm_num⟩

end Gibbs
